import Mathlib

/-!
Verification development for the fast-language-guesser detection engine.

The definitions below are a shallow embedding of the TypeScript sources:
src/src/language.ts (class LanguageGuesser), src/src/regex.ts (script
patterns), and the trigram normalizer of the earlier in-repo revision of
LanguageGuesser.getTrigrams (the current revision delegates to the external
fast-tokenizer package).  Strings are modelled as lists of characters and
JavaScript numbers as exact rationals.  A JavaScript runtime error (an
uncaught TypeError) is modelled by the error branch of Except.
-/

/-- Texts are modelled as lists of Unicode characters. -/
abbrev Str := List Char

/-- Trigrams are 3-character strings. -/
abbrev Trigram := Str

/-- An n-gram model is an ordered list of trigrams (position = rank). -/
abbrev NgramModel := List Trigram

/-- The script-indexed table of per-language n-gram models.  The data file
behind ngramsData (src/src/data/ngrams.json) is not part of the sources, so
the table is a parameter of the embedded operations; association lists keep
the object key enumeration order. -/
abbrev NgramsTable := List (String × List (String × NgramModel))

/-- Reads a JavaScript object property: with duplicate keys the later entry
wins, and a missing key yields none. -/
def lookupKey {α : Type} : List (String × α) → String → Option α
  | [], _ => none
  | p :: rest, key =>
    match lookupKey rest key with
    | some v => some v
    | none => if p.1 = key then some p.2 else none

/-- Tests whether a character lies in one of the inclusive code-point ranges. -/
def inRanges (ranges : List (Nat × Nat)) (c : Char) : Bool :=
  ranges.any (fun r => decide (r.1 ≤ c.toNat) && decide (c.toNat ≤ r.2))

/-- Modelled from the Unicode script property data referenced by the Latin
pattern of src/src/regex.ts: the principal Latin letter blocks. -/
def latinScript : Char → Bool :=
  inRanges [(0x41, 0x5A), (0x61, 0x7A), (0xC0, 0xD6), (0xD8, 0xF6), (0xF8, 0x24F)]

/-- Modelled from the Unicode script property data referenced by the non-Latin
patterns of src/src/regex.ts: the principal block of each remaining script,
keyed and ordered exactly as the source scripts object (Latin excluded here;
it is spliced into place in scripts below). -/
def nonLatinScriptRanges : List (String × List (Nat × Nat)) :=
  [ ("cmn", [(0x4E00, 0x9FFF), (0x3400, 0x4DBF)]),
    ("Cyrillic", [(0x400, 0x4FF)]),
    ("Arabic", [(0x600, 0x6FF)]),
    ("ben", [(0x980, 0x9FF)]),
    ("Devanagari", [(0x900, 0x97F)]),
    ("jpn", [(0x3040, 0x309F), (0x30A0, 0x30FF)]),
    ("kor", [(0xAC00, 0xD7AF), (0x1100, 0x11FF)]),
    ("tel", [(0xC00, 0xC7F)]),
    ("tam", [(0xB80, 0xBFF)]),
    ("guj", [(0xA80, 0xAFF)]),
    ("kan", [(0xC80, 0xCFF)]),
    ("mal", [(0xD00, 0xD7F)]),
    ("Myanmar", [(0x1000, 0x109F)]),
    ("ori", [(0xB00, 0xB7F)]),
    ("pan", [(0xA00, 0xA7F)]),
    ("Ethiopic", [(0x1200, 0x137F)]),
    ("tha", [(0xE00, 0xE7F)]),
    ("sin", [(0xD80, 0xDFF)]),
    ("ell", [(0x370, 0x3FF), (0x1F00, 0x1FFF)]),
    ("khm", [(0x1780, 0x17FF)]),
    ("hye", [(0x530, 0x58F)]),
    ("sat", [(0x1C50, 0x1C7F)]),
    ("bod", [(0xF00, 0xFFF)]),
    ("Hebrew", [(0x590, 0x5FF)]),
    ("kat", [(0x10A0, 0x10FF)]),
    ("lao", [(0xE80, 0xEFF)]),
    ("zgh", [(0x2D30, 0x2D7F)]),
    ("iii", [(0xA000, 0xA48F)]),
    ("aii", [(0x10B00, 0x10B3F)]) ]

/-- The script table of src/src/regex.ts in object key order: cmn first, then
Latin, then the remaining scripts. -/
def scripts : List (String × (Char → Bool)) :=
  match nonLatinScriptRanges with
  | [] => []
  | cmn :: rest =>
    (cmn.1, inRanges cmn.2) :: ("Latin", latinScript) ::
      rest.map (fun p => (p.1, inRanges p.2))

/-- Modelled from the Unicode Letter category used by the isLatin check
(regex p-Letter): the union of the embedded script letter blocks, so that
every Latin letter is a letter. -/
def unicodeLetter (c : Char) : Bool :=
  latinScript c || nonLatinScriptRanges.any (fun p => inRanges p.2 c)

/-- Counts the characters of a text matched by a (single-character) pattern,
as a global regex match does. -/
def countMatches (p : Char → Bool) (s : Str) : Nat :=
  (s.filter p).length

namespace LanguageGuesser

/-- Embeds the missing-trigram penalty constant of src/src/language.ts. -/
def MISSING_TRIGRAM_PENALTY : ℚ := 300

/-- Embeds the default undetermined result of src/src/language.ts. -/
def und : List (String × ℚ) := [(("und" : String), (1 : ℚ))]

/-- Embeds LanguageGuesser.getOccurrence: the proportion of pattern matches
in the text, 0 for the empty text. -/
def getOccurrence (inputText : Str) (p : Char → Bool) : ℚ :=
  if inputText.length = 0 then 0
  else (countMatches p inputText : ℚ) / (inputText.length : ℚ)

/-- Embeds LanguageGuesser.isLatin: false for the empty text or a text with
no letters, otherwise true iff the Latin matches exceed half the letter
matches. -/
def isLatin (inputText : Str) : Bool :=
  if inputText.isEmpty then false
  else
    let latinCount := countMatches latinScript inputText
    let letterCount := countMatches unicodeLetter inputText
    if letterCount = 0 then false
    else decide ((letterCount : ℚ) / 2 < (latinCount : ℚ))

/-- Embeds the scan loop of LanguageGuesser.getTopScript: tracks the script
with maximal occurrence, returning early when an occurrence of exactly 1 is
newly installed. -/
def getTopScriptAux (inputText : Str) :
    List (String × (Char → Bool)) → String × ℚ → String × ℚ
  | [], top => top
  | entry :: rest, top =>
    let count := getOccurrence inputText entry.2
    if top.2 < count then
      if count = 1 then (entry.1, count)
      else getTopScriptAux inputText rest (entry.1, count)
    else getTopScriptAux inputText rest top

/-- Embeds LanguageGuesser.getTopScript. -/
def getTopScript (inputText : Str) : String × ℚ :=
  if inputText.length < 3 then (("und" : String), (1 : ℚ))
  else if isLatin inputText then (("Latin" : String), (1 : ℚ))
  else getTopScriptAux inputText scripts (("" : String), (-1 : ℚ))

/-- Modelled from the spec (the diacritics stripper is the external
fast-diacritics package): removes combining diacritical marks and maps the
precomposed Latin-1 letters to their base letter; other characters pass
through unchanged. -/
def removeDiacritics (s : Str) : Str :=
  (s.filter (fun c => !(decide (0x300 ≤ c.toNat) && decide (c.toNat ≤ 0x36F)))).map
    (fun c =>
      let n := c.toNat
      if decide (0xC0 ≤ n) && decide (n ≤ 0xC5) then 'A'
      else if n = 0xC7 then 'C'
      else if decide (0xC8 ≤ n) && decide (n ≤ 0xCB) then 'E'
      else if decide (0xCC ≤ n) && decide (n ≤ 0xCF) then 'I'
      else if n = 0xD1 then 'N'
      else if decide (0xD2 ≤ n) && decide (n ≤ 0xD6) then 'O'
      else if decide (0xD9 ≤ n) && decide (n ≤ 0xDC) then 'U'
      else if n = 0xDD then 'Y'
      else if decide (0xE0 ≤ n) && decide (n ≤ 0xE5) then 'a'
      else if n = 0xE7 then 'c'
      else if decide (0xE8 ≤ n) && decide (n ≤ 0xEB) then 'e'
      else if decide (0xEC ≤ n) && decide (n ≤ 0xEF) then 'i'
      else if n = 0xF1 then 'n'
      else if decide (0xF2 ≤ n) && decide (n ≤ 0xF6) then 'o'
      else if decide (0xF9 ≤ n) && decide (n ≤ 0xFC) then 'u'
      else if n = 0xFD || n = 0xFF then 'y'
      else c)

/-- Characters of the code-point range u0021-u0040 (punctuation and digits),
whose maximal runs the normalizer replaces by single spaces. -/
def punctDigit (c : Char) : Bool :=
  decide (0x21 ≤ c.toNat) && decide (c.toNat ≤ 0x40)

/-- Characters matched by the regex whitespace class of JavaScript. -/
def jsWhitespace (c : Char) : Bool :=
  c.toNat == 0x20 || c.toNat == 0x9 || c.toNat == 0xA || c.toNat == 0xB ||
  c.toNat == 0xC || c.toNat == 0xD || c.toNat == 0xA0 || c.toNat == 0x1680 ||
  (decide (0x2000 ≤ c.toNat) && decide (c.toNat ≤ 0x200A)) ||
  c.toNat == 0x2028 || c.toNat == 0x2029 || c.toNat == 0x202F ||
  c.toNat == 0x205F || c.toNat == 0x3000 || c.toNat == 0xFEFF

/-- Replaces every maximal run of characters satisfying p by a single space,
as a global replace of the regex p+ does; the flag records whether the
previous character belonged to a run. -/
def collapseRuns (p : Char → Bool) : Bool → Str → Str
  | _, [] => []
  | inRun, c :: rest =>
    if p c then
      if inRun then collapseRuns p true rest
      else ' ' :: collapseRuns p true rest
    else c :: collapseRuns p false rest

/-- Removes leading and trailing whitespace, as String.prototype.trim does. -/
def trimWs (s : Str) : Str :=
  ((s.dropWhile jsWhitespace).reverse.dropWhile jsWhitespace).reverse

/-- Embeds the normalization pipeline of the in-repo getTrigrams: strip
diacritics, collapse punctuation-digit runs to spaces, collapse whitespace
runs to spaces, trim, lowercase (before the space padding is added). -/
def normalizeCore (s : Str) : Str :=
  (trimWs (collapseRuns jsWhitespace false
    (collapseRuns punctDigit false (removeDiacritics s)))).map Char.toLower

/-- Produces every overlapping window of 3 consecutive characters, in order. -/
def windows3 : Str → List Trigram
  | a :: b :: c :: rest => [a, b, c] :: windows3 (b :: c :: rest)
  | _ => []

/-- Embeds LanguageGuesser.getTrigrams (in-repo revision): empty input gives
no trigrams; otherwise the normalized text is padded with one leading and one
trailing space and every overlapping 3-character window is emitted, the empty
list being returned when the padded text is shorter than 3 characters. -/
def getTrigrams (inputText : Str) : List Trigram :=
  if inputText.isEmpty then []
  else
    let normalized := ' ' :: (normalizeCore inputText ++ [' '])
    if normalized.length < 3 then []
    else windows3 normalized

/-- Embeds the frequency-map insertion of LanguageGuesser.asTuples: bump the
count of a present trigram in place, or append a fresh entry with count 1. -/
def bumpCount (m : List (Trigram × ℚ)) (t : Trigram) : List (Trigram × ℚ) :=
  if m.any (fun p => decide (p.1 = t)) then
    m.map (fun p => if p.1 = t then (p.1, p.2 + 1) else p)
  else m ++ [(t, (1 : ℚ))]

/-- Embeds LanguageGuesser.asTuples: count the trigram occurrences (entries
in first-occurrence order) and stable-sort ascending by count. -/
def asTuples (inputText : Str) : List (Trigram × ℚ) :=
  ((getTrigrams inputText).foldl bumpCount []).mergeSort
    (fun a b => decide (a.2 ≤ b.2))

/-- Embeds the precomputed model index of src/src/language.ts: the rank of a
trigram in a model, later duplicate entries overwriting earlier ones, none
when the trigram is absent. -/
def lastIdxOf (model : NgramModel) (t : Trigram) : Option Nat :=
  model.enum.foldl (fun acc p => if p.2 = t then some p.1 else acc) none

/-- Embeds LanguageGuesser.getDistance: each profile entry adds half the
absolute difference of its count and its model rank, or the fixed penalty
when the trigram is absent from the model. -/
def getDistance (trigrams : List (Trigram × ℚ)) (model : NgramModel) : ℚ :=
  trigrams.foldl
    (fun distance p =>
      match lastIdxOf model p.1 with
      | none => distance + MISSING_TRIGRAM_PENALTY
      | some rank => distance + |p.2 - (rank : ℚ)| / 2)
    0

/-- Embeds LanguageGuesser.filterLanguages over the key-ordered language
map. -/
def filterLanguages (languages : List (String × NgramModel))
    (allowList denyList : List String) : List (String × NgramModel) :=
  if allowList.isEmpty && denyList.isEmpty then languages
  else
    languages.filter (fun p =>
      (allowList.isEmpty || allowList.contains p.1) && !(denyList.contains p.1))

/-- Embeds the detection settings interface: absent fields are none. -/
structure IDetectionSettings where
  minLength : Option Nat
  allowList : Option (List String)
  denyList : Option (List String)

/-- Embeds LanguageGuesser.getDistances: filter the candidate languages, pair
each with its distance, and stable-sort ascending by distance. -/
def getDistances (trigrams : List (Trigram × ℚ))
    (srcLanguages : List (String × NgramModel))
    (options : IDetectionSettings) : List (String × ℚ) :=
  let allowList := options.allowList.getD []
  let denyList := options.denyList.getD []
  let filtered := filterLanguages srcLanguages allowList denyList
  (filtered.map (fun p => (p.1, getDistance trigrams p.2))).mergeSort
    (fun a b => decide (a.2 ≤ b.2))

/-- Embeds the score normalization of detectAll: minDistance is the distance
of the first candidate, denom is the clamped maximal distance, and each
candidate is scored 1 minus its normalized excess distance (the falsy-guard
of the source maps 0 to 0 and is the identity here since denom is at least
1). -/
def scoredOf (textLen : Nat) (distances : List (String × ℚ)) :
    List (String × ℚ) :=
  match distances with
  | [] => []
  | first :: _ =>
    let minDistance := first.2
    let maxDistance := (textLen : ℚ) * MISSING_TRIGRAM_PENALTY - minDistance
    let denom := max 1 maxDistance
    distances.map (fun p => (p.1, 1 - (p.2 - minDistance) / denom))

/-- Embeds the confidence floor of detectAll: an empty scored list, or a best
score below one half, collapses to the undetermined result. -/
def confidenceFloor (scored : List (String × ℚ)) : List (String × ℚ) :=
  match scored with
  | [] => und
  | first :: _ => if first.2 < 1 / 2 then und else scored

/-- Embeds the trigram-scoring tail of detectAll (lines 271-283 of
src/src/language.ts): a leading undetermined pseudo-candidate yields the
script itself; an empty distance list makes the source read a property of
undefined and throw, modelled as the error branch; otherwise the candidates
are scored and passed through the confidence floor. -/
def scoreCandidates (scriptId : String) (textLen : Nat)
    (distances : List (String × ℚ)) : Except String (List (String × ℚ)) :=
  match distances with
  | [] => Except.error ("TypeError: cannot read [1] of undefined distances[0]")
  | first :: _ =>
    if first.1 = "und" then Except.ok [(scriptId, (1 : ℚ))]
    else Except.ok (confidenceFloor (scoredOf textLen distances))

/-- Embeds LanguageGuesser.detectAll over an explicit n-gram table. -/
def detectAll (table : NgramsTable) (inputText : Str)
    (settings : IDetectionSettings) : Except String (List (String × ℚ)) :=
  let minLength := settings.minLength.getD 10
  if inputText.isEmpty || inputText.length < minLength then Except.ok und
  else
    let text := inputText.take 2048
    let top := getTopScript text
    let scriptId := top.1
    let scriptOccurrence := top.2
    match lookupKey table scriptId with
    | none =>
      if 1 / 2 < scriptOccurrence then
        match settings.allowList with
        | some allow =>
          if allow.contains scriptId then Except.ok [(scriptId, (1 : ℚ))]
          else if scriptId = "cmn" && allow.contains "jpn" then
            Except.ok [(("jpn" : String), (1 : ℚ))]
          else Except.ok und
        | none => Except.ok [(scriptId, (1 : ℚ))]
      else Except.ok und
    | some models =>
      scoreCandidates scriptId text.length
        (getDistances (asTuples text) models settings)

end LanguageGuesser

/-- Embeds the ILanguageData interface: one registry record. -/
structure ILanguageData where
  alpha2 : String
  alpha3 : String
  name : String
deriving DecidableEq, Repr

/-- Embeds the result records of guess, guessBest and guessMixed. -/
structure GuessResult where
  alpha3 : String
  alpha2 : String
  language : String
  score : ℚ
deriving DecidableEq, Repr

/-- Embeds an instance of the LanguageGuesser class: the language registry
rows of src/src/data/languages.json (not part of the sources, hence a field)
and the n-gram table. -/
structure LanguageGuesser where
  registry : List ILanguageData
  table : NgramsTable

namespace LanguageGuesser

/-- Embeds the languagesAlpha3 map built by buildData: lookup by alpha-3
code, later registry rows overwriting earlier ones. -/
def languagesAlpha3 (g : LanguageGuesser) (code : String) : Option ILanguageData :=
  g.registry.foldl (fun acc r => if r.alpha3 = code then some r else acc) none

/-- Embeds the languagesAlpha2 map built by buildData. -/
def languagesAlpha2 (g : LanguageGuesser) (code : String) : Option ILanguageData :=
  g.registry.foldl (fun acc r => if r.alpha2 = code then some r else acc) none

/-- Embeds LanguageGuesser.transformCodeList: 3-letter codes pass through,
2-letter codes are resolved through the alpha-2 map, unresolvable codes are
dropped. -/
def transformCodeList (g : LanguageGuesser) (list : List String) : List String :=
  (list.map (fun code =>
    if code.length = 3 then code
    else
      match languagesAlpha2 g code with
      | some d => d.alpha3
      | none => "")).filter (fun s => !s.isEmpty)

/-- Embeds the result mapping of LanguageGuesser.guess: resolve each scored
candidate through the registry, dropping unresolvable codes; an empty
outcome becomes the undetermined record, otherwise the first limit entries
are kept. -/
def resolveResults (g : LanguageGuesser) (limit : Nat)
    (scores : List (String × ℚ)) : List GuessResult :=
  let results := scores.filterMap (fun p =>
    match languagesAlpha3 g p.1 with
    | some lang => some (⟨lang.alpha3, lang.alpha2, lang.name, p.2⟩ : GuessResult)
    | none => none)
  if results.isEmpty then
    [(⟨("und" : String), ("" : String), ("Undetermined" : String), (0 : ℚ)⟩ : GuessResult)]
  else results.take limit

/-- Embeds LanguageGuesser.guess: run detectAll with normalized allow and
deny lists, then map the scores through the registry. -/
def guess (g : LanguageGuesser) (utterance : Str) (allowList : List String)
    (limit : Nat) (denyList : List String) : Except String (List GuessResult) :=
  let options : IDetectionSettings :=
    ⟨none,
      if allowList.isEmpty then none else some (transformCodeList g allowList),
      if denyList.isEmpty then none else some (transformCodeList g denyList)⟩
  match detectAll g.table utterance options with
  | Except.error e => Except.error e
  | Except.ok scores => Except.ok (resolveResults g limit scores)

/-- Embeds LanguageGuesser.guessBest: the first result of guess with limit 1,
defaulting to the undetermined record. -/
def guessBest (g : LanguageGuesser) (utterance : Str) (allowList : List String) :
    Except String GuessResult :=
  match guess g utterance allowList 1 [] with
  | Except.error e => Except.error e
  | Except.ok results =>
    Except.ok (results.headD
      (⟨("und" : String), ("" : String), ("Undetermined" : String), (0 : ℚ)⟩ : GuessResult))

/-- Sentence-final punctuation of the segmentation regex. -/
def sentenceEnd (c : Char) : Bool := c == '.' || c == '!' || c == '?'

/-- Embeds String.prototype.split on the lookbehind regex of guessMixed: the
text is cut at every maximal whitespace run whose preceding character is
sentence-final punctuation; the Bool records whether the scan stands inside
such a run, accRev the current segment reversed and doneRev the completed
segments reversed. -/
def splitAux : Str → Bool → Str → List Str → List Str
  | [], inSep, accRev, doneRev =>
    if inSep then (([] : Str) :: doneRev).reverse
    else (accRev.reverse :: doneRev).reverse
  | c :: rest, inSep, accRev, doneRev =>
    if inSep then
      if jsWhitespace c then splitAux rest true accRev doneRev
      else splitAux rest false [c] doneRev
    else if jsWhitespace c then
      match accRev with
      | prev :: _ =>
        if sentenceEnd prev then splitAux rest true [] (accRev.reverse :: doneRev)
        else splitAux rest false (c :: accRev) doneRev
      | [] => splitAux rest false (c :: accRev) doneRev
    else splitAux rest false (c :: accRev) doneRev

/-- Splits a text on sentence boundaries as the first step of guessMixed. -/
def splitSentences (s : Str) : List Str := splitAux s false [] []

/-- Embeds the sliding-window loop of guessMixed: from index i, emit the
window of windowSize characters starting at i and advance by stepSize while
i is below the segment length.  The source loop never terminates when the
step is zero, so the recursion is guarded by a positive step. -/
def slidingWindowsAux (seg : Str) (windowSize stepSize i : Nat) : List Str :=
  if h : i < seg.length ∧ 0 < stepSize then
    ((seg.drop i).take windowSize) :: slidingWindowsAux seg windowSize stepSize (i + stepSize)
  else []
termination_by seg.length - i
decreasing_by omega

/-- Embeds the segmentation policy of guessMixed: sentence segments of
length at least 10 after trimming; the whole utterance when none survives;
a sliding-window re-segmentation when exactly one long segment survives.  A
zero step size makes the source loop forever, modelled as the error
branch. -/
def segmentsOf (utterance : Str) (windowSize stepSize : Option Nat) :
    Except String (List Str) :=
  let segments :=
    ((splitSentences utterance).map trimWs).filter (fun s => decide (10 ≤ s.length))
  match segments with
  | [] => Except.ok [utterance]
  | [seg] =>
    if 40 < seg.length then
      let w := windowSize.getD 40
      let step := stepSize.getD 20
      if step = 0 then Except.error ("nontermination: sliding window never advances")
      else Except.ok (slidingWindowsAux seg w step 0)
    else Except.ok [seg]
  | more => Except.ok more

/-- Embeds the per-segment detection of guessMixed: each segment is paired
with its up-to-3 candidate guesses, in order, the first uncaught error
aborting the traversal as a thrown exception aborts the forEach. -/
def segmentGuesses (g : LanguageGuesser) (allowList : List String) :
    List Str → Except String (List (Str × List GuessResult))
  | [] => Except.ok []
  | seg :: rest =>
    match guess g seg allowList 3 [] with
    | Except.error e => Except.error e
    | Except.ok cs =>
      match segmentGuesses g allowList rest with
      | Except.error e => Except.error e
      | Except.ok tail => Except.ok ((seg, cs) :: tail)

/-- Embeds the per-language accumulator records of guessMixed. -/
structure AggEntry where
  totalScore : ℚ
  totalWeight : ℚ
  alpha2 : String
  alpha3 : String
  language : String
deriving DecidableEq, Repr

/-- Embeds the two increments of the guessMixed aggregation loop:
totalScore grows by score times weight and totalWeight by weight. -/
def bumpEntry (score weight : ℚ) (e : AggEntry) : AggEntry :=
  ⟨e.totalScore + score * weight, e.totalWeight + weight, e.alpha2, e.alpha3, e.language⟩

/-- Embeds one candidate update of the guessMixed aggregation: a fresh entry
is appended with zero totals and then incremented; an existing entry has its
totals incremented in place. -/
def addCandidate (weight : ℚ) (m : List (String × AggEntry)) (c : GuessResult) :
    List (String × AggEntry) :=
  if m.any (fun p => decide (p.1 = c.alpha3)) then
    m.map (fun p =>
      if p.1 = c.alpha3 then (p.1, bumpEntry c.score weight p.2) else p)
  else
    m ++ [(c.alpha3,
      bumpEntry c.score weight (⟨0, 0, c.alpha2, c.alpha3, c.language⟩ : AggEntry))]

/-- Embeds LanguageGuesser.guessMixed: segment, guess per segment, aggregate
with segment-length weights, average, sort descending by score and truncate
to limit. -/
def guessMixed (g : LanguageGuesser) (utterance : Str) (allowList : List String)
    (limit : Nat) (windowSize stepSize : Option Nat) :
    Except String (List GuessResult) :=
  match segmentsOf utterance windowSize stepSize with
  | Except.error e => Except.error e
  | Except.ok segments =>
    match segmentGuesses g allowList segments with
    | Except.error e => Except.error e
    | Except.ok segCands =>
      let aggregated := segCands.foldl
        (fun m sc => sc.2.foldl (addCandidate (sc.1.length : ℚ)) m) []
      let results := aggregated.map (fun p =>
        (⟨p.2.alpha3, p.2.alpha2, p.2.language,
          if p.2.totalWeight = 0 then 0 else p.2.totalScore / p.2.totalWeight⟩ : GuessResult))
      Except.ok ((results.mergeSort (fun a b => decide (b.score ≤ a.score))).take limit)

end LanguageGuesser

namespace LanguageGuesser

/-- Every Latin letter is a letter of the modelled Letter category. -/
lemma latin_subset_letter : ∀ c, latinScript c = true → unicodeLetter c = true := by
  intro c hc
  simp [unicodeLetter, hc]

/-- Counting matches is monotone in the pattern. -/
lemma countMatches_mono {p q : Char → Bool} (hpq : ∀ c, p c = true → q c = true) :
    ∀ s : Str, countMatches p s ≤ countMatches q s := by
  intro s
  induction s with
  | nil => simp [countMatches]
  | cons a t ih =>
    unfold countMatches at *
    rw [List.filter_cons, List.filter_cons]
    by_cases hp : p a = true
    · rw [if_pos hp, if_pos (hpq a hp)]
      simpa using ih
    · rw [if_neg hp]
      by_cases hq : q a = true
      · rw [if_pos hq]
        exact le_trans ih (by simp)
      · rw [if_neg hq]
        exact ih

/-- C8: the trigram extractor on input Hello returns exactly the five
overlapping windows of the lowercased space-padded text, and for every input
whose normalized padded form is shorter than 3 characters it returns the
empty sequence. -/
theorem C8_getTrigrams_hello_and_short :
    getTrigrams ("Hello".toList) =
      [(" he".toList), ("hel".toList), ("ell".toList), ("llo".toList), ("lo ".toList)] ∧
    ∀ s : Str, (' ' :: (normalizeCore s ++ [' '])).length < 3 → getTrigrams s = [] := by
  refine ⟨by decide, ?_⟩
  intro s h
  unfold getTrigrams
  by_cases hs : s.isEmpty
  · simp [hs]
  · simp only [hs, Bool.false_eq_true, if_false]
    rw [if_pos h]

/-- Witness for C8 at the one-character input consisting of a period. -/
theorem C8_witness : getTrigrams (".".toList) = [] :=
  C8_getTrigrams_hello_and_short.2 (".".toList) (by decide)

/-- C4: for an empty text or one shorter than the configured minimum length
(default 10 when unset), detectAll returns exactly the undetermined list,
regardless of the table and the other settings. -/
theorem C4_detectAll_short_und (table : NgramsTable) (s : Str)
    (settings : IDetectionSettings)
    (h : s = [] ∨ s.length < settings.minLength.getD 10) :
    detectAll table s settings = Except.ok [(("und" : String), (1 : ℚ))] := by
  have hc : (s.isEmpty || decide (s.length < settings.minLength.getD 10)) = true := by
    rcases h with h | h
    · subst h; rfl
    · simp [h]
  unfold detectAll
  simp only [hc, if_true]
  rfl

/-- Witness for C4 at the two-character input Hi with default settings. -/
theorem C4_witness :
    detectAll [] ("Hi".toList) ⟨none, none, none⟩ =
      Except.ok [(("und" : String), (1 : ℚ))] :=
  C4_detectAll_short_und [] ("Hi".toList) ⟨none, none, none⟩ (Or.inr (by decide))

/-- C9: the script classifier returns und for every text shorter than 3
characters, and returns Latin with occurrence 1 for every text whose Latin
matches exceed half of its Unicode-letter matches. -/
theorem C9_getTopScript_short_and_latin :
    (∀ s : Str, s.length < 3 → getTopScript s = (("und" : String), (1 : ℚ))) ∧
    (∀ s : Str, 3 ≤ s.length →
      (countMatches unicodeLetter s : ℚ) / 2 < (countMatches latinScript s : ℚ) →
      getTopScript s = (("Latin" : String), (1 : ℚ))) := by
  constructor
  · intro s h
    unfold getTopScript
    rw [if_pos h]
  · intro s h3 hq
    have hne : s.isEmpty = false := by
      cases s with
      | nil => simp at h3
      | cons a t => rfl
    have hmono : countMatches latinScript s ≤ countMatches unicodeLetter s :=
      countMatches_mono latin_subset_letter s
    have hletter : ¬ countMatches unicodeLetter s = 0 := by
      intro h0
      have hl0 : countMatches latinScript s = 0 := by omega
      rw [h0, hl0] at hq
      norm_num at hq
    have hlat : isLatin s = true := by
      unfold isLatin
      simp only [hne, Bool.false_eq_true, if_false, hletter]
      exact decide_eq_true hq
    unfold getTopScript
    rw [if_neg (by omega : ¬ s.length < 3)]
    simp [hlat]

/-- Witness for C9 at the majority-Latin input Hello. -/
theorem C9_witness : getTopScript ("Hello".toList) = (("Latin" : String), (1 : ℚ)) :=
  C9_getTopScript_short_and_latin.2 ("Hello".toList) (by decide)
    (by with_unfolding_all decide)

/-- Cost of one profile entry against a model, as the spec states it: half
the absolute difference of count and rank for an in-model trigram, the fixed
penalty of 300 otherwise. -/
def trigramCost (model : NgramModel) (p : Trigram × ℚ) : ℚ :=
  match lastIdxOf model p.1 with
  | none => MISSING_TRIGRAM_PENALTY
  | some rank => |p.2 - (rank : ℚ)| / 2

/-- The distance fold accumulates exactly the per-entry costs. -/
lemma getDistance_foldl (model : NgramModel) :
    ∀ (l : List (Trigram × ℚ)) (a : ℚ),
      l.foldl
        (fun distance p =>
          match lastIdxOf model p.1 with
          | none => distance + MISSING_TRIGRAM_PENALTY
          | some rank => distance + |p.2 - (rank : ℚ)| / 2)
        a = a + (l.map (trigramCost model)).sum := by
  intro l
  induction l with
  | nil => intro a; simp
  | cons p t ih =>
    intro a
    cases h : lastIdxOf model p.1 <;>
      simp [h, ih, trigramCost, add_assoc]

/-- C6: for every trigram profile with non-negative counts and every model,
getDistance is the sum over the profile of half the absolute count-rank
difference for in-model trigrams and the fixed penalty 300 for absent ones,
and the result is non-negative. -/
theorem C6_getDistance_sum (trigrams : List (Trigram × ℚ)) (model : NgramModel)
    (hpos : ∀ p ∈ trigrams, (0 : ℚ) ≤ p.2) :
    getDistance trigrams model = (trigrams.map (trigramCost model)).sum ∧
    0 ≤ getDistance trigrams model := by
  have heq : getDistance trigrams model = (trigrams.map (trigramCost model)).sum := by
    unfold getDistance
    rw [getDistance_foldl, zero_add]
  refine ⟨heq, ?_⟩
  rw [heq]
  apply List.sum_nonneg
  intro x hx
  rcases List.mem_map.1 hx with ⟨p, hp, rfl⟩
  unfold trigramCost
  cases h : lastIdxOf model p.1 with
  | none => norm_num [MISSING_TRIGRAM_PENALTY]
  | some rank => positivity

/-- Witness for C6 at a one-entry profile against a one-trigram model. -/
theorem C6_witness :
    0 ≤ getDistance [(("abc".toList), (2 : ℚ))] [("abc".toList)] :=
  (C6_getDistance_sum [(("abc".toList), (2 : ℚ))] [("abc".toList)]
    (by with_unfolding_all decide)).2

end LanguageGuesser

namespace LanguageGuesser

/-- The gate of detectAll is passed for a non-empty text of at least the
minimum length. -/
lemma detectAll_guard_false {s : Str} {settings : IDetectionSettings}
    (hne : s ≠ []) (hlen : settings.minLength.getD 10 ≤ s.length) :
    (s.isEmpty || decide (s.length < settings.minLength.getD 10)) = false := by
  cases s with
  | nil => exact absurd rfl hne
  | cons a t =>
    simp only [List.isEmpty_cons, Bool.false_or, decide_eq_false (Nat.not_lt.mpr hlen)]

/-- On the no-models branch with a dominant script and a present allow-list,
detectAll reduces to the allow-list dispatch of the source. -/
lemma detectAll_no_models_allow (table : NgramsTable) (s : Str)
    (settings : IDetectionSettings) (sid : String) (occ : ℚ) (allow : List String)
    (hne : s ≠ []) (hlen : settings.minLength.getD 10 ≤ s.length)
    (hscript : getTopScript (s.take 2048) = (sid, occ))
    (hmodels : lookupKey table sid = none)
    (hocc : 1 / 2 < occ)
    (hallow : settings.allowList = some allow) :
    detectAll table s settings =
      (if allow.contains sid then Except.ok [(sid, (1 : ℚ))]
       else if sid = "cmn" && allow.contains "jpn" then
         Except.ok [(("jpn" : String), (1 : ℚ))]
       else Except.ok und) := by
  have hguard := detectAll_guard_false hne hlen
  simp only [detectAll, hguard, Bool.false_eq_true, if_false, hscript, hmodels, hocc,
    if_true, hallow]

/-- On the no-models branch with a dominant script and no allow-list,
detectAll returns the script itself. -/
lemma detectAll_no_models_noallow (table : NgramsTable) (s : Str)
    (settings : IDetectionSettings) (sid : String) (occ : ℚ)
    (hne : s ≠ []) (hlen : settings.minLength.getD 10 ≤ s.length)
    (hscript : getTopScript (s.take 2048) = (sid, occ))
    (hmodels : lookupKey table sid = none)
    (hocc : 1 / 2 < occ)
    (hallow : settings.allowList = none) :
    detectAll table s settings = Except.ok [(sid, (1 : ℚ))] := by
  have hguard := detectAll_guard_false hne hlen
  simp only [detectAll, hguard, Bool.false_eq_true, if_false, hscript, hmodels, hocc,
    if_true, hallow]

/-- On the branch whose script has registered models, detectAll reduces to
the scoring tail applied to the ranked distances. -/
lemma detectAll_models_path (table : NgramsTable) (s : Str)
    (settings : IDetectionSettings) (models : List (String × NgramModel))
    (hne : s ≠ []) (hlen : settings.minLength.getD 10 ≤ s.length)
    (hmodels : lookupKey table (getTopScript (s.take 2048)).1 = some models) :
    detectAll table s settings =
      scoreCandidates (getTopScript (s.take 2048)).1 (s.take 2048).length
        (getDistances (asTuples (s.take 2048)) models settings) := by
  have hguard := detectAll_guard_false hne hlen
  simp only [detectAll, hguard, Bool.false_eq_true, if_false, hmodels]

/-- C5: with a dominant script that has no registered n-gram models, the
result honours the allow-list: the script itself when allowed, jpn for Han
with jpn allowed, und for an unmatched allow-list, and the script itself
when no allow-list is present. -/
theorem C5_script_only_branch (table : NgramsTable) (s : Str)
    (settings : IDetectionSettings) (sid : String) (occ : ℚ)
    (hne : s ≠ []) (hlen : settings.minLength.getD 10 ≤ s.length)
    (hscript : getTopScript (s.take 2048) = (sid, occ))
    (hmodels : lookupKey table sid = none)
    (hocc : 1 / 2 < occ) :
    (∀ allow, settings.allowList = some allow →
      (allow.contains sid = true →
        detectAll table s settings = Except.ok [(sid, (1 : ℚ))]) ∧
      (allow.contains sid = false → sid = "cmn" → allow.contains "jpn" = true →
        detectAll table s settings = Except.ok [(("jpn" : String), (1 : ℚ))]) ∧
      (allow.contains sid = false → ¬(sid = "cmn" ∧ allow.contains "jpn" = true) →
        detectAll table s settings = Except.ok [(("und" : String), (1 : ℚ))])) ∧
    (settings.allowList = none →
      detectAll table s settings = Except.ok [(sid, (1 : ℚ))]) := by
  constructor
  · intro allow hallow
    have hd := detectAll_no_models_allow table s settings sid occ allow
      hne hlen hscript hmodels hocc hallow
    refine ⟨?_, ?_, ?_⟩
    · intro hc
      rw [hd, if_pos hc]
    · intro hc hcmn hjpn
      rw [hd, if_neg (by rw [hc]; exact Bool.false_ne_true),
        if_pos (by rw [hjpn, Bool.and_true]; exact decide_eq_true hcmn)]
    · intro hc hnot
      have hfalse : (decide (sid = "cmn") && allow.contains "jpn") = false := by
        cases hb : allow.contains ("jpn") with
        | false => simp [hb]
        | true =>
          by_cases hcmn : sid = "cmn"
          · exact absurd ⟨hcmn, hb⟩ hnot
          · simp [hcmn]
      rw [hd, if_neg (by rw [hc]; exact Bool.false_ne_true),
        if_neg (by rw [hfalse]; exact Bool.false_ne_true)]
      rfl
  · intro hnone
    exact detectAll_no_models_noallow table s settings sid occ
      hne hlen hscript hmodels hocc hnone

/-- Witness for C5: the four allow-list cases at concrete Hangul and Han
texts over the empty table. -/
theorem C5_witness :
    detectAll [] ("안녕하세요안녕하세요".toList) ⟨none, some [("kor" : String)], none⟩ =
      Except.ok [(("kor" : String), (1 : ℚ))] ∧
    detectAll [] ("你好世界你好世界你好".toList) ⟨none, some [("jpn" : String)], none⟩ =
      Except.ok [(("jpn" : String), (1 : ℚ))] ∧
    detectAll [] ("안녕하세요안녕하세요".toList) ⟨none, some [("eng" : String)], none⟩ =
      Except.ok [(("und" : String), (1 : ℚ))] ∧
    detectAll [] ("안녕하세요안녕하세요".toList) ⟨none, none, none⟩ =
      Except.ok [(("kor" : String), (1 : ℚ))] := by
  refine ⟨?_, ?_, ?_, ?_⟩
  · exact ((C5_script_only_branch [] _ _ ("kor") 1 (by decide) (by decide)
      (by with_unfolding_all decide) (by decide) (by with_unfolding_all decide)).1
      [("kor" : String)] rfl).1 (by decide)
  · exact (((C5_script_only_branch [] _ _ ("cmn") 1 (by decide) (by decide)
      (by with_unfolding_all decide) (by decide) (by with_unfolding_all decide)).1
      [("jpn" : String)] rfl).2.1 (by decide) rfl (by decide))
  · exact (((C5_script_only_branch [] _ _ ("kor") 1 (by decide) (by decide)
      (by with_unfolding_all decide) (by decide) (by with_unfolding_all decide)).1
      [("eng" : String)] rfl).2.2 (by decide) (by decide))
  · exact (C5_script_only_branch [] _ _ ("kor") 1 (by decide) (by decide)
      (by with_unfolding_all decide) (by decide) (by with_unfolding_all decide)).2 rfl

end LanguageGuesser

namespace LanguageGuesser

set_option maxRecDepth 100000 in
/-- C1 (refuting the no-throw guarantee): when the Language Filter leaves
zero candidates for a script that has n-gram models — here a Latin text with
an allow-list containing only tha — the source reads distances[0][1] of an
empty array and throws a TypeError, modelled by the error branch; guess,
guessBest and guessMixed propagate the same failure instead of degrading to
the undetermined result. -/
theorem C1_detectAll_throws_on_empty_distances :
    detectAll [(("Latin" : String), [(("eng" : String), [("the".toList)])])]
        ("this is a test".toList) ⟨none, some [("tha" : String)], none⟩ =
      Except.error ("TypeError: cannot read [1] of undefined distances[0]") ∧
    guess ⟨[⟨("en" : String), ("eng" : String), ("English" : String)⟩],
        [(("Latin" : String), [(("eng" : String), [("the".toList)])])]⟩
        ("this is a test".toList) [("tha" : String)] 3 [] =
      Except.error ("TypeError: cannot read [1] of undefined distances[0]") ∧
    guessBest ⟨[⟨("en" : String), ("eng" : String), ("English" : String)⟩],
        [(("Latin" : String), [(("eng" : String), [("the".toList)])])]⟩
        ("this is a test".toList) [("tha" : String)] =
      Except.error ("TypeError: cannot read [1] of undefined distances[0]") ∧
    guessMixed ⟨[⟨("en" : String), ("eng" : String), ("English" : String)⟩],
        [(("Latin" : String), [(("eng" : String), [("the".toList)])])]⟩
        ("this is a test".toList) [("tha" : String)] 3 none none =
      Except.error ("TypeError: cannot read [1] of undefined distances[0]") := by
  refine ⟨?_, ?_, ?_, ?_⟩ <;> with_unfolding_all rfl

/-- C2: the scoring tail of detectAll applies a confidence floor — a best
normalized score below one half collapses the detection to the undetermined
result — and on the models path with a non-und best candidate detectAll
returns exactly the floored scored list. -/
theorem C2_confidence_floor :
    (∀ (l : String) (q : ℚ) (rest : List (String × ℚ)), q < 1 / 2 →
      confidenceFloor ((l, q) :: rest) = [(("und" : String), (1 : ℚ))]) ∧
    (∀ (table : NgramsTable) (s : Str) (settings : IDetectionSettings)
        (models : List (String × NgramModel)) (l0 : String) (d0 : ℚ)
        (ds : List (String × ℚ)),
      s ≠ [] → settings.minLength.getD 10 ≤ s.length →
      lookupKey table (getTopScript (s.take 2048)).1 = some models →
      getDistances (asTuples (s.take 2048)) models settings = (l0, d0) :: ds →
      l0 ≠ "und" →
      detectAll table s settings =
        Except.ok (confidenceFloor (scoredOf (s.take 2048).length ((l0, d0) :: ds)))) := by
  constructor
  · intro l q rest hq
    simp only [confidenceFloor]
    rw [if_pos hq]
    rfl
  · intro table s settings models l0 d0 ds hne hlen hmodels hdist hl0
    rw [detectAll_models_path table s settings models hne hlen hmodels, hdist]
    simp only [scoreCandidates]
    rw [if_neg hl0]

set_option maxRecDepth 100000 in
/-- Witness for C2: the floor collapses a leading score of one quarter, and
a one-language Latin table reaches the floored scoring path. -/
theorem C2_witness :
    confidenceFloor [(("eng" : String), (1 / 4 : ℚ))] = [(("und" : String), (1 : ℚ))] ∧
    detectAll [(("Latin" : String), [(("eng" : String), [("abc".toList)])])]
        ("abc".toList) ⟨some 3, none, none⟩ =
      Except.ok (confidenceFloor (scoredOf (("abc".toList).take 2048).length
        [(("eng" : String), (1201 / 2 : ℚ))])) :=
  ⟨C2_confidence_floor.1 ("eng") (1 / 4) [] (by with_unfolding_all decide),
   C2_confidence_floor.2 [(("Latin" : String), [(("eng" : String), [("abc".toList)])])]
     ("abc".toList) ⟨some 3, none, none⟩ [(("eng" : String), [("abc".toList)])]
     ("eng") (1201 / 2) []
     (by decide) (by decide) (by with_unfolding_all decide)
     (by with_unfolding_all decide) (by decide)⟩

/-- C3: on the trigram-scoring path with a non-und lowest-distance candidate,
the first returned score is exactly 1 — the head distance is the minimum, so
its normalized excess is 0 — and hence the inconclusive branch is not taken:
the scored list itself is returned. -/
theorem C3_first_score_is_one (table : NgramsTable) (s : Str)
    (settings : IDetectionSettings) (models : List (String × NgramModel))
    (l0 : String) (d0 : ℚ) (ds : List (String × ℚ))
    (hne : s ≠ []) (hlen : settings.minLength.getD 10 ≤ s.length)
    (hmodels : lookupKey table (getTopScript (s.take 2048)).1 = some models)
    (hdist : getDistances (asTuples (s.take 2048)) models settings = (l0, d0) :: ds)
    (hl0 : l0 ≠ "und") :
    detectAll table s settings =
      Except.ok ((l0, (1 : ℚ)) :: ds.map (fun p => (p.1,
        1 - (p.2 - d0) / max 1 (((s.take 2048).length : ℚ) * MISSING_TRIGRAM_PENALTY - d0)))) := by
  rw [detectAll_models_path table s settings models hne hlen hmodels, hdist]
  simp only [scoreCandidates]
  rw [if_neg hl0]
  simp only [scoredOf, List.map_cons, sub_self, zero_div, sub_zero]
  simp only [confidenceFloor]
  rw [if_neg (by norm_num : ¬ (1 : ℚ) < 1 / 2)]

set_option maxRecDepth 100000 in
/-- Witness for C3: the one-language Latin table yields the head score 1. -/
theorem C3_witness :
    detectAll [(("Latin" : String), [(("eng" : String), [("abc".toList)])])]
        ("abc".toList) ⟨some 3, none, none⟩ =
      Except.ok [(("eng" : String), (1 : ℚ))] :=
  C3_first_score_is_one [(("Latin" : String), [(("eng" : String), [("abc".toList)])])]
    ("abc".toList) ⟨some 3, none, none⟩ [(("eng" : String), [("abc".toList)])]
    ("eng") (1201 / 2) []
    (by decide) (by decide) (by with_unfolding_all decide)
    (by with_unfolding_all decide) (by decide)

end LanguageGuesser

namespace LanguageGuesser

/-- The comparator of the distance sort is transitive. -/
lemma distLe_trans : ∀ (a b c : String × ℚ),
    (fun a b : String × ℚ => decide (a.2 ≤ b.2)) a b = true →
    (fun a b : String × ℚ => decide (a.2 ≤ b.2)) b c = true →
    (fun a b : String × ℚ => decide (a.2 ≤ b.2)) a c = true := by
  intro a b c hab hbc
  exact decide_eq_true (le_trans (of_decide_eq_true hab) (of_decide_eq_true hbc))

/-- The comparator of the distance sort is total. -/
lemma distLe_total : ∀ (a b : String × ℚ),
    ((fun a b : String × ℚ => decide (a.2 ≤ b.2)) a b ||
     (fun a b : String × ℚ => decide (a.2 ≤ b.2)) b a) = true := by
  intro a b
  rcases le_total a.2 b.2 with h | h <;> simp [h]

/-- Ranked distances are sorted ascending by distance. -/
lemma getDistances_sorted (trigrams : List (Trigram × ℚ))
    (srcLanguages : List (String × NgramModel)) (options : IDetectionSettings) :
    (getDistances trigrams srcLanguages options).Pairwise
      (fun a b : String × ℚ => a.2 ≤ b.2) := by
  unfold getDistances
  have h := @List.sorted_mergeSort (String × ℚ)
    (fun a b : String × ℚ => decide (a.2 ≤ b.2)) distLe_trans distLe_total
    ((filterLanguages srcLanguages (options.allowList.getD [])
      (options.denyList.getD [])).map
      (fun p => (p.1, getDistance trigrams p.2)))
  exact h.imp (fun hab => of_decide_eq_true hab)

/-- Scoring an ascending distance list yields a descending score list. -/
lemma scoredOf_sorted (n : Nat) (distances : List (String × ℚ))
    (h : distances.Pairwise (fun a b : String × ℚ => a.2 ≤ b.2)) :
    (scoredOf n distances).Pairwise (fun a b : String × ℚ => b.2 ≤ a.2) := by
  cases distances with
  | nil => simp [scoredOf]
  | cons first rest =>
    simp only [scoredOf]
    have hdpos : (0 : ℚ) < max 1 ((n : ℚ) * MISSING_TRIGRAM_PENALTY - first.2) :=
      lt_of_lt_of_le zero_lt_one (le_max_left _ _)
    refine List.Pairwise.map _ ?_ h
    intro a b hab
    have hdiv : (a.2 - first.2) / max 1 ((n : ℚ) * MISSING_TRIGRAM_PENALTY - first.2) ≤
        (b.2 - first.2) / max 1 ((n : ℚ) * MISSING_TRIGRAM_PENALTY - first.2) :=
      (div_le_div_right hdpos).mpr (sub_le_sub_right hab _)
    exact sub_le_sub_left hdiv 1

/-- The confidence floor preserves descending order. -/
lemma confidenceFloor_sorted (scored : List (String × ℚ))
    (h : scored.Pairwise (fun a b : String × ℚ => b.2 ≤ a.2)) :
    (confidenceFloor scored).Pairwise (fun a b : String × ℚ => b.2 ≤ a.2) := by
  cases scored with
  | nil => simp [confidenceFloor, und]
  | cons first rest =>
    simp only [confidenceFloor]
    by_cases hq : first.2 < 1 / 2
    · rw [if_pos hq]
      simp [und]
    · rw [if_neg hq]
      exact h

/-- A successful scoring tail is sorted descending whenever its input
distances are sorted ascending. -/
lemma scoreCandidates_ok_sorted (sid : String) (n : Nat)
    (distances : List (String × ℚ)) (res : List (String × ℚ))
    (hsorted : distances.Pairwise (fun a b : String × ℚ => a.2 ≤ b.2))
    (h : scoreCandidates sid n distances = Except.ok res) :
    res.Pairwise (fun a b : String × ℚ => b.2 ≤ a.2) := by
  unfold scoreCandidates at h
  cases distances with
  | nil => exact absurd h (by simp)
  | cons first rest =>
    replace h : (if first.1 = "und" then Except.ok [(sid, (1 : ℚ))]
        else Except.ok (confidenceFloor (scoredOf n (first :: rest)))) =
        Except.ok res := h
    by_cases hu : first.1 = "und"
    · rw [if_pos hu] at h
      injection h with h
      subst h
      simp
    · rw [if_neg hu] at h
      injection h with h
      subst h
      exact confidenceFloor_sorted _ (scoredOf_sorted n _ hsorted)

/-- Every successful detectAll result is sorted descending by score. -/
lemma detectAll_ok_sorted (table : NgramsTable) (s : Str)
    (settings : IDetectionSettings) (res : List (String × ℚ))
    (h : detectAll table s settings = Except.ok res) :
    res.Pairwise (fun a b : String × ℚ => b.2 ≤ a.2) := by
  unfold detectAll at h
  by_cases hguard : (s.isEmpty || decide (s.length < settings.minLength.getD 10)) = true
  · simp only [hguard, if_true] at h
    injection h with h
    subst h
    simp [und]
  · have hg := eq_false_of_ne_true hguard
    simp only [hg, Bool.false_eq_true, if_false] at h
    cases hlk : lookupKey table (getTopScript (s.take 2048)).1 with
    | none =>
      simp only [hlk] at h
      by_cases hocc : (1 : ℚ) / 2 < (getTopScript (s.take 2048)).2
      · rw [if_pos hocc] at h
        cases hal : settings.allowList with
        | none =>
          simp only [hal] at h
          injection h with h
          subst h
          simp
        | some allow =>
          simp only [hal] at h
          by_cases hc : allow.contains (getTopScript (s.take 2048)).1
          · rw [if_pos hc] at h
            injection h with h
            subst h
            simp
          · rw [if_neg hc] at h
            by_cases hcj : (decide ((getTopScript (s.take 2048)).1 = "cmn") &&
                allow.contains "jpn") = true
            · rw [if_pos hcj] at h
              injection h with h
              subst h
              simp
            · rw [if_neg hcj] at h
              injection h with h
              subst h
              simp [und]
      · rw [if_neg hocc] at h
        injection h with h
        subst h
        simp [und]
    | some models =>
      simp only [hlk] at h
      exact scoreCandidates_ok_sorted _ _ _ _ (getDistances_sorted _ _ _) h

/-- In a descending list the head dominates every element. -/
lemma pairwise_desc_head {res : List (String × ℚ)}
    (h : res.Pairwise (fun a b : String × ℚ => b.2 ≤ a.2)) :
    ∀ first rest, res = first :: rest → ∀ q ∈ res, q.2 ≤ first.2 := by
  intro first rest hres q hq
  subst hres
  rcases List.mem_cons.1 hq with rfl | hq'
  · exact le_refl _
  · exact (List.pairwise_cons.1 h).1 q hq'

/-- The comparator of the guessMixed result sort is transitive. -/
lemma scoreGe_trans : ∀ (a b c : GuessResult),
    (fun a b : GuessResult => decide (b.score ≤ a.score)) a b = true →
    (fun a b : GuessResult => decide (b.score ≤ a.score)) b c = true →
    (fun a b : GuessResult => decide (b.score ≤ a.score)) a c = true := by
  intro a b c hab hbc
  exact decide_eq_true (le_trans (of_decide_eq_true hbc) (of_decide_eq_true hab))

/-- The comparator of the guessMixed result sort is total. -/
lemma scoreGe_total : ∀ (a b : GuessResult),
    ((fun a b : GuessResult => decide (b.score ≤ a.score)) a b ||
     (fun a b : GuessResult => decide (b.score ≤ a.score)) b a) = true := by
  intro a b
  rcases le_total a.score b.score with h | h <;> simp [h]

/-- Every successful guessMixed result is sorted descending by score. -/
lemma guessMixed_ok_sorted (g : LanguageGuesser) (utterance : Str)
    (allowList : List String) (limit : Nat) (windowSize stepSize : Option Nat)
    (rs : List GuessResult)
    (h : guessMixed g utterance allowList limit windowSize stepSize = Except.ok rs) :
    rs.Pairwise (fun a b : GuessResult => b.score ≤ a.score) := by
  unfold guessMixed at h
  cases hseg : segmentsOf utterance windowSize stepSize with
  | error e =>
    simp only [hseg] at h
    exact Except.noConfusion h
  | ok segments =>
    simp only [hseg] at h
    cases hsg : segmentGuesses g allowList segments with
    | error e =>
      simp only [hsg] at h
      exact Except.noConfusion h
    | ok segCands =>
      simp only [hsg] at h
      injection h with h
      subst h
      refine List.Pairwise.sublist (List.take_sublist _ _) ?_
      have hs := @List.sorted_mergeSort GuessResult
        (fun a b : GuessResult => decide (b.score ≤ a.score)) scoreGe_trans scoreGe_total
        ((segCands.foldl (fun m sc => sc.2.foldl (addCandidate (sc.1.length : ℚ)) m)
          []).map (fun p =>
            (⟨p.2.alpha3, p.2.alpha2, p.2.language,
              if p.2.totalWeight = 0 then 0 else p.2.totalScore / p.2.totalWeight⟩ : GuessResult)))
      exact hs.imp (fun hab => of_decide_eq_true hab)

/-- C7: every list returned by one detectAll call is sorted descending by
score — in particular its first score dominates the others — and the
aggregated results of guessMixed are likewise sorted descending. -/
theorem C7_results_sorted_descending :
    (∀ (table : NgramsTable) (s : Str) (settings : IDetectionSettings)
        (res : List (String × ℚ)),
      detectAll table s settings = Except.ok res →
      res.Pairwise (fun a b : String × ℚ => b.2 ≤ a.2) ∧
      (∀ first rest, res = first :: rest → ∀ q ∈ res, q.2 ≤ first.2)) ∧
    (∀ (g : LanguageGuesser) (utterance : Str) (allowList : List String)
        (limit : Nat) (windowSize stepSize : Option Nat) (rs : List GuessResult),
      guessMixed g utterance allowList limit windowSize stepSize = Except.ok rs →
      rs.Pairwise (fun a b : GuessResult => b.score ≤ a.score)) :=
  ⟨fun table s settings res h =>
    ⟨detectAll_ok_sorted table s settings res h,
     pairwise_desc_head (detectAll_ok_sorted table s settings res h)⟩,
   guessMixed_ok_sorted⟩

/-- Witness for C7 at the short input Hi through detectAll and guessMixed. -/
theorem C7_witness :
    ([(("und" : String), (1 : ℚ))]).Pairwise (fun a b : String × ℚ => b.2 ≤ a.2) ∧
    ([(⟨("und" : String), ("" : String), ("Undetermined" : String), (0 : ℚ)⟩ : GuessResult)]).Pairwise
      (fun a b : GuessResult => b.score ≤ a.score) :=
  ⟨(C7_results_sorted_descending.1 [] ("Hi".toList) ⟨none, none, none⟩
      [(("und" : String), (1 : ℚ))] (by with_unfolding_all rfl)).1,
   C7_results_sorted_descending.2 ⟨[], []⟩ ("Hi".toList) [] 3 none none
      [(⟨("und" : String), ("" : String), ("Undetermined" : String), (0 : ℚ)⟩ : GuessResult)]
      (by with_unfolding_all rfl)⟩

end LanguageGuesser

namespace LanguageGuesser

/-- Modelled from the spec's aggregation formula: per language code, the sum
over the segments of score times segment length for the candidates of that
code. -/
def totalScoreSpec (segCands : List (Str × List GuessResult)) (code : String) : ℚ :=
  (segCands.map (fun sc =>
    ((sc.2.filter (fun c => decide (c.alpha3 = code))).map
      (fun c => c.score * (sc.1.length : ℚ))).sum)).sum

/-- Modelled from the spec's aggregation formula: per language code, the sum
of the segment lengths over the segments in which that code appeared. -/
def totalWeightSpec (segCands : List (Str × List GuessResult)) (code : String) : ℚ :=
  (segCands.map (fun sc =>
    if sc.2.any (fun c => decide (c.alpha3 = code)) then (sc.1.length : ℚ) else 0)).sum

/-- The accumulated totalScore stored for a code, 0 when the code is absent. -/
def aggScore (m : List (String × AggEntry)) (code : String) : ℚ :=
  match lookupKey m code with
  | some e => e.totalScore
  | none => 0

/-- The accumulated totalWeight stored for a code, 0 when the code is absent. -/
def aggWeight (m : List (String × AggEntry)) (code : String) : ℚ :=
  match lookupKey m code with
  | some e => e.totalWeight
  | none => 0

/-- The weighted candidate occurrences of the segments, flattened in order. -/
def candStream (segCands : List (Str × List GuessResult)) : List (ℚ × GuessResult) :=
  segCands.flatMap (fun sc => sc.2.map (fun c => ((sc.1.length : ℚ), c)))

/-- Weighted-score total of the occurrences of a code in a stream. -/
def streamScore (stream : List (ℚ × GuessResult)) (code : String) : ℚ :=
  ((stream.filter (fun wc => decide (wc.2.alpha3 = code))).map
    (fun wc => wc.2.score * wc.1)).sum

/-- Weight total of the occurrences of a code in a stream. -/
def streamWeight (stream : List (ℚ × GuessResult)) (code : String) : ℚ :=
  ((stream.filter (fun wc => decide (wc.2.alpha3 = code))).map
    (fun wc => wc.1)).sum

/-- Looking a key up after appending a single pair sees the new pair first. -/
lemma lookupKey_append_single {α : Type} (m : List (String × α)) (k : String)
    (v : α) (code : String) :
    lookupKey (m ++ [(k, v)]) code = if k = code then some v else lookupKey m code := by
  induction m with
  | nil =>
    by_cases hk : k = code <;> simp [lookupKey, hk]
  | cons p rest ih =>
    have h1 : lookupKey ((p :: rest) ++ [(k, v)]) code =
        match lookupKey (rest ++ [(k, v)]) code with
        | some w => some w
        | none => if p.1 = code then some p.2 else none := rfl
    rw [h1, ih]
    by_cases hk : k = code
    · rw [if_pos hk, if_pos hk]
    · rw [if_neg hk, if_neg hk]
      rfl

/-- Updating the entries of one key rewrites exactly the lookup of that key. -/
lemma lookupKey_map_update (m : List (String × AggEntry)) (k : String)
    (f : AggEntry → AggEntry) (code : String) :
    lookupKey (m.map (fun p => if p.1 = k then (p.1, f p.2) else p)) code =
      if k = code then (lookupKey m code).map f else lookupKey m code := by
  induction m with
  | nil => by_cases hk : k = code <;> simp [lookupKey, hk]
  | cons p rest ih =>
    by_cases hk : k = code
    · subst hk
      by_cases hp : p.1 = k
      · simp only [List.map_cons, lookupKey, ih, if_pos rfl]
        cases hl : lookupKey rest k <;> simp [hl, hp]
      · simp only [List.map_cons, lookupKey, ih, if_pos rfl]
        cases hl : lookupKey rest k <;> simp [hl, hp]
    · by_cases hp : p.1 = k
      · have hpc : ¬ p.1 = code := fun hc => hk (hp.symm.trans hc)
        simp only [List.map_cons, lookupKey, ih, if_neg hk]
        cases hl : lookupKey rest code <;> simp [hl, hp, hpc, hk]
      · simp only [List.map_cons, lookupKey, ih, if_neg hk]
        cases hl : lookupKey rest code <;> simp [hl, hp]

/-- A key on which any fails is absent. -/
lemma lookupKey_eq_none_of_any_false {α : Type} (m : List (String × α)) (code : String)
    (h : m.any (fun p => decide (p.1 = code)) = false) :
    lookupKey m code = none := by
  induction m with
  | nil => rfl
  | cons p rest ih =>
    simp only [List.any_cons, Bool.or_eq_false_iff] at h
    simp only [lookupKey, ih h.2]
    simp only [of_decide_eq_false h.1, if_false]

/-- A key on which any succeeds is present. -/
lemma lookupKey_isSome_of_any_true {α : Type} (m : List (String × α)) (code : String)
    (h : m.any (fun p => decide (p.1 = code)) = true) :
    ∃ v, lookupKey m code = some v := by
  induction m with
  | nil => simp at h
  | cons p rest ih =>
    simp only [lookupKey]
    cases hl : lookupKey rest code with
    | some v => exact ⟨v, rfl⟩
    | none =>
      simp only [List.any_cons, Bool.or_eq_true_iff] at h
      rcases h with h | h
      · exact ⟨p.2, by simp [of_decide_eq_true h]⟩
      · rcases ih h with ⟨v, hv⟩
        rw [hv] at hl
        cases hl

/-- A key absent from the key list looks up to none. -/
lemma lookupKey_eq_none_of_not_mem {α : Type} (m : List (String × α)) (code : String)
    (h : code ∉ m.map Prod.fst) : lookupKey m code = none := by
  induction m with
  | nil => rfl
  | cons p rest ih =>
    simp only [List.map_cons, List.mem_cons, not_or] at h
    have hpc : ¬ p.1 = code := fun hc => h.1 hc.symm
    simp only [lookupKey, ih h.2, if_neg hpc]

/-- With pairwise-distinct keys, every member is found by its own key. -/
lemma lookupKey_of_mem_nodup {α : Type} (m : List (String × α))
    (hnd : (m.map Prod.fst).Nodup) (p : String × α) (hp : p ∈ m) :
    lookupKey m p.1 = some p.2 := by
  induction m with
  | nil => cases hp
  | cons q rest ih =>
    simp only [List.map_cons, List.nodup_cons] at hnd
    rcases List.mem_cons.1 hp with rfl | hp'
    · simp only [lookupKey, lookupKey_eq_none_of_not_mem rest p.1 hnd.1]
      simp
    · simp only [lookupKey, ih hnd.2 hp']

end LanguageGuesser

namespace LanguageGuesser

/-- Adding one candidate increments the stored totalScore of its code by
score times weight and leaves other codes untouched. -/
lemma addCandidate_aggScore (weight : ℚ) (m : List (String × AggEntry))
    (c : GuessResult) (code : String) :
    aggScore (addCandidate weight m c) code =
      if c.alpha3 = code then aggScore m code + c.score * weight
      else aggScore m code := by
  unfold addCandidate aggScore
  by_cases hmem : m.any (fun p => decide (p.1 = c.alpha3)) = true
  · rw [if_pos hmem, lookupKey_map_update m c.alpha3 (bumpEntry c.score weight) code]
    by_cases hc : c.alpha3 = code
    · rw [if_pos hc]
      rcases lookupKey_isSome_of_any_true m c.alpha3 hmem with ⟨v, hv⟩
      rw [hc] at hv
      rw [hv]
      simp [bumpEntry, hc]
    · rw [if_neg hc, if_neg hc]
  · rw [if_neg hmem, lookupKey_append_single m c.alpha3 _ code]
    by_cases hc : c.alpha3 = code
    · rw [if_pos hc, if_pos hc]
      have hnone := lookupKey_eq_none_of_any_false m c.alpha3
        (eq_false_of_ne_true hmem)
      rw [hc] at hnone
      rw [hnone]
      simp [bumpEntry, hc]
    · rw [if_neg hc, if_neg hc]

/-- Adding one candidate increments the stored totalWeight of its code by
the weight and leaves other codes untouched. -/
lemma addCandidate_aggWeight (weight : ℚ) (m : List (String × AggEntry))
    (c : GuessResult) (code : String) :
    aggWeight (addCandidate weight m c) code =
      if c.alpha3 = code then aggWeight m code + weight
      else aggWeight m code := by
  unfold addCandidate aggWeight
  by_cases hmem : m.any (fun p => decide (p.1 = c.alpha3)) = true
  · rw [if_pos hmem, lookupKey_map_update m c.alpha3 (bumpEntry c.score weight) code]
    by_cases hc : c.alpha3 = code
    · rw [if_pos hc]
      rcases lookupKey_isSome_of_any_true m c.alpha3 hmem with ⟨v, hv⟩
      rw [hc] at hv
      rw [hv]
      simp [bumpEntry, hc]
    · rw [if_neg hc, if_neg hc]
  · rw [if_neg hmem, lookupKey_append_single m c.alpha3 _ code]
    by_cases hc : c.alpha3 = code
    · rw [if_pos hc, if_pos hc]
      have hnone := lookupKey_eq_none_of_any_false m c.alpha3
        (eq_false_of_ne_true hmem)
      rw [hc] at hnone
      rw [hnone]
      simp [bumpEntry, hc]
    · rw [if_neg hc, if_neg hc]

/-- Folding a stream of weighted candidates accumulates exactly the stream
totals on every code. -/
lemma foldl_addCandidate_totals (stream : List (ℚ × GuessResult)) :
    ∀ (m : List (String × AggEntry)) (code : String),
      aggScore (stream.foldl (fun m wc => addCandidate wc.1 m wc.2) m) code =
        aggScore m code + streamScore stream code ∧
      aggWeight (stream.foldl (fun m wc => addCandidate wc.1 m wc.2) m) code =
        aggWeight m code + streamWeight stream code := by
  induction stream with
  | nil => intro m code; simp [streamScore, streamWeight]
  | cons wc rest ih =>
    intro m code
    have h1 := ih (addCandidate wc.1 m wc.2) code
    by_cases hc : wc.2.alpha3 = code
    · constructor
      · rw [List.foldl_cons, h1.1, addCandidate_aggScore, if_pos hc]
        simp [streamScore, List.filter_cons, hc, add_assoc]
      · rw [List.foldl_cons, h1.2, addCandidate_aggWeight, if_pos hc]
        simp [streamWeight, List.filter_cons, hc, add_assoc]
    · constructor
      · rw [List.foldl_cons, h1.1, addCandidate_aggScore, if_neg hc]
        simp [streamScore, List.filter_cons, hc]
      · rw [List.foldl_cons, h1.2, addCandidate_aggWeight, if_neg hc]
        simp [streamWeight, List.filter_cons, hc]

/-- The nested aggregation fold of guessMixed equals the fold over the
flattened weighted candidate stream. -/
lemma agg_fold_eq_stream (segCands : List (Str × List GuessResult)) :
    ∀ (m0 : List (String × AggEntry)),
      segCands.foldl (fun m sc => sc.2.foldl (addCandidate (sc.1.length : ℚ)) m) m0 =
        (candStream segCands).foldl (fun m wc => addCandidate wc.1 m wc.2) m0 := by
  induction segCands with
  | nil => intro m0; rfl
  | cons sc rest ih =>
    intro m0
    have hflat : candStream (sc :: rest) =
        sc.2.map (fun c => ((sc.1.length : ℚ), c)) ++ candStream rest := rfl
    rw [List.foldl_cons, ih, hflat, List.foldl_append]
    congr 1
    rw [List.foldl_map]

/-- The stream score totals are the per-segment weighted sums of the spec. -/
lemma streamScore_eq_spec (segCands : List (Str × List GuessResult)) (code : String) :
    streamScore (candStream segCands) code = totalScoreSpec segCands code := by
  induction segCands with
  | nil => rfl
  | cons sc rest ih =>
    have hflat : candStream (sc :: rest) =
        sc.2.map (fun c => ((sc.1.length : ℚ), c)) ++ candStream rest := rfl
    unfold streamScore at *
    unfold totalScoreSpec at *
    rw [hflat, List.filter_append, List.map_append, List.sum_append, ih,
      List.map_cons, List.sum_cons]
    congr 1
    rw [List.filter_map, List.map_map]
    rfl

/-- With distinct codes inside one candidate list, the weighted occurrence
total of a code over that list is its segment weight when present, 0
otherwise. -/
lemma weight_of_nodup (l : List GuessResult) (w : ℚ) (code : String)
    (h : (l.map GuessResult.alpha3).Nodup) :
    ((l.filter (fun c => decide (c.alpha3 = code))).map (fun _ => w)).sum =
      if l.any (fun c => decide (c.alpha3 = code)) then w else 0 := by
  induction l with
  | nil => simp
  | cons c t ih =>
    simp only [List.map_cons, List.nodup_cons] at h
    by_cases hc : c.alpha3 = code
    · have hfilter : t.filter (fun x => decide (x.alpha3 = code)) = [] := by
        rw [List.filter_eq_nil_iff]
        intro x hx hxc
        exact h.1 (by
          rw [List.mem_map]
          exact ⟨x, hx, (of_decide_eq_true hxc).trans hc.symm⟩)
      rw [List.filter_cons, if_pos (decide_eq_true hc), List.any_cons]
      rw [hfilter]
      simp [hc]
    · rw [List.filter_cons, if_neg (by simp [hc]), List.any_cons, ih h.2]
      simp [hc]

/-- Under per-segment distinctness, the stream weight totals are the
per-segment sums of the spec. -/
lemma streamWeight_eq_spec (segCands : List (Str × List GuessResult)) (code : String)
    (hnodup : ∀ sc ∈ segCands, (sc.2.map GuessResult.alpha3).Nodup) :
    streamWeight (candStream segCands) code = totalWeightSpec segCands code := by
  induction segCands with
  | nil => rfl
  | cons sc rest ih =>
    have hflat : candStream (sc :: rest) =
        sc.2.map (fun c => ((sc.1.length : ℚ), c)) ++ candStream rest := rfl
    unfold streamWeight at *
    unfold totalWeightSpec at *
    rw [hflat, List.filter_append, List.map_append, List.sum_append,
      ih (fun x hx => hnodup x (List.mem_cons_of_mem sc hx)),
      List.map_cons, List.sum_cons]
    congr 1
    rw [List.filter_map, List.map_map]
    have hw := weight_of_nodup sc.2 (sc.1.length : ℚ) code
      (hnodup sc (List.mem_cons_self sc rest))
    rw [← hw]
    rfl

end LanguageGuesser

namespace LanguageGuesser

/-- Adding a candidate keeps the aggregation keys pairwise distinct. -/
lemma addCandidate_keys (weight : ℚ) (m : List (String × AggEntry)) (c : GuessResult)
    (h : (m.map Prod.fst).Nodup) :
    ((addCandidate weight m c).map Prod.fst).Nodup := by
  unfold addCandidate
  by_cases hmem : m.any (fun p => decide (p.1 = c.alpha3)) = true
  · rw [if_pos hmem]
    have hfst : (m.map (fun p =>
        if p.1 = c.alpha3 then (p.1, bumpEntry c.score weight p.2) else p)).map Prod.fst =
        m.map Prod.fst := by
      rw [List.map_map]
      apply List.map_congr_left
      intro p hp
      by_cases hpk : p.1 = c.alpha3 <;> simp [hpk]
    rw [hfst]
    exact h
  · rw [if_neg hmem, List.map_append]
    have hnot : c.alpha3 ∉ m.map Prod.fst := by
      intro hmemk
      rcases List.mem_map.1 hmemk with ⟨p, hp, hfst⟩
      exact hmem (List.any_eq_true.2 ⟨p, hp, decide_eq_true hfst⟩)
    simp [List.nodup_append, h, hnot]

/-- Adding a candidate keeps each stored alpha3 equal to its key. -/
lemma addCandidate_meta (weight : ℚ) (m : List (String × AggEntry)) (c : GuessResult)
    (h : ∀ p ∈ m, (p.2 : AggEntry).alpha3 = p.1) :
    ∀ p ∈ addCandidate weight m c, (p.2 : AggEntry).alpha3 = p.1 := by
  unfold addCandidate
  by_cases hmem : m.any (fun p => decide (p.1 = c.alpha3)) = true
  · rw [if_pos hmem]
    intro p hp
    rcases List.mem_map.1 hp with ⟨q, hq, rfl⟩
    by_cases hqk : q.1 = c.alpha3 <;> simp [hqk, bumpEntry, h q hq]
  · rw [if_neg hmem]
    intro p hp
    rcases List.mem_append.1 hp with hp | hp
    · exact h p hp
    · rw [List.mem_singleton.1 hp]
      simp [bumpEntry]

/-- The aggregation fold keeps the keys pairwise distinct. -/
lemma foldl_addCandidate_keys (stream : List (ℚ × GuessResult)) :
    ∀ m, (m.map Prod.fst).Nodup →
      ((stream.foldl (fun m wc => addCandidate wc.1 m wc.2) m).map Prod.fst).Nodup := by
  induction stream with
  | nil => intro m h; exact h
  | cons wc rest ih =>
    intro m h
    exact ih _ (addCandidate_keys wc.1 m wc.2 h)

/-- The aggregation fold keeps each stored alpha3 equal to its key. -/
lemma foldl_addCandidate_meta (stream : List (ℚ × GuessResult)) :
    ∀ m, (∀ p ∈ m, (p.2 : AggEntry).alpha3 = p.1) →
      ∀ p ∈ stream.foldl (fun m wc => addCandidate wc.1 m wc.2) m,
        (p.2 : AggEntry).alpha3 = p.1 := by
  induction stream with
  | nil => intro m h; exact h
  | cons wc rest ih =>
    intro m h
    exact ih _ (addCandidate_meta wc.1 m wc.2 h)

/-- The resolved results of a limit-3 guess hold at most 3 candidates. -/
lemma resolveResults_length (g : LanguageGuesser) (scores : List (String × ℚ)) :
    (resolveResults g 3 scores).length ≤ 3 := by
  unfold resolveResults
  dsimp only
  split
  · simp
  · exact List.length_take_le _ _

/-- A successful guess with limit 3 returns at most 3 candidates. -/
lemma guess_ok_length (g : LanguageGuesser) (seg : Str) (allow deny : List String)
    (cs : List GuessResult) (h : guess g seg allow 3 deny = Except.ok cs) :
    cs.length ≤ 3 := by
  unfold guess at h
  dsimp only at h
  cases hda : detectAll g.table seg
      ⟨none,
        if allow.isEmpty then none else some (transformCodeList g allow),
        if deny.isEmpty then none else some (transformCodeList g deny)⟩ with
  | error e =>
    rw [hda] at h
    exact Except.noConfusion h
  | ok scores =>
    rw [hda] at h
    injection h with h
    subst h
    exact resolveResults_length g scores

/-- Each pair produced by segmentGuesses is a successful guess of its own
segment. -/
lemma segmentGuesses_ok_mem (g : LanguageGuesser) (allow : List String) :
    ∀ (segments : List Str) (segCands : List (Str × List GuessResult)),
      segmentGuesses g allow segments = Except.ok segCands →
      ∀ sc ∈ segCands, guess g sc.1 allow 3 [] = Except.ok sc.2 := by
  intro segments
  induction segments with
  | nil =>
    intro segCands h sc hsc
    injection h with h
    subst h
    cases hsc
  | cons seg rest ih =>
    intro segCands h sc hsc
    unfold segmentGuesses at h
    cases hg : guess g seg allow 3 [] with
    | error e => rw [hg] at h; exact Except.noConfusion h
    | ok cs =>
      rw [hg] at h
      cases hr : segmentGuesses g allow rest with
      | error e => rw [hr] at h; exact Except.noConfusion h
      | ok tail =>
        rw [hr] at h
        injection h with h
        subst h
        rcases List.mem_cons.1 hsc with rfl | hsc'
        · exact hg
        · exact ih tail hr sc hsc'

end LanguageGuesser

namespace LanguageGuesser

/-- C10: each segment contributes at most 3 candidates; every returned
aggregated score is the weighted average totalScoreSpec / totalWeightSpec of
its language over the segments (weights = segment lengths); and the returned
list is sorted descending by score with at most limit entries. -/
theorem C10_guessMixed_weighted_average
    (g : LanguageGuesser) (utterance : Str) (allowList : List String)
    (limit : Nat) (windowSize stepSize : Option Nat)
    (segments : List Str) (segCands : List (Str × List GuessResult))
    (rs : List GuessResult)
    (hseg : segmentsOf utterance windowSize stepSize = Except.ok segments)
    (hsg : segmentGuesses g allowList segments = Except.ok segCands)
    (hnodup : ∀ sc ∈ segCands, (sc.2.map GuessResult.alpha3).Nodup)
    (hmix : guessMixed g utterance allowList limit windowSize stepSize = Except.ok rs) :
    (∀ sc ∈ segCands, sc.2.length ≤ 3) ∧
    (∀ r ∈ rs, r.score =
      totalScoreSpec segCands r.alpha3 / totalWeightSpec segCands r.alpha3) ∧
    rs.Pairwise (fun a b : GuessResult => b.score ≤ a.score) ∧
    rs.length ≤ limit := by
  have hsorted := guessMixed_ok_sorted g utterance allowList limit windowSize stepSize rs hmix
  unfold guessMixed at hmix
  simp only [hseg, hsg] at hmix
  injection hmix with hmix
  refine ⟨?_, ?_, hsorted, ?_⟩
  · intro sc hsc
    exact guess_ok_length g sc.1 allowList [] sc.2
      (segmentGuesses_ok_mem g allowList segments segCands hsg sc hsc)
  · intro r hr
    rw [← hmix] at hr
    have h2 := (List.take_sublist limit _).subset hr
    have h3 := (List.mergeSort_perm _
      (fun a b : GuessResult => decide (b.score ≤ a.score))).mem_iff.1 h2
    rcases List.mem_map.1 h3 with ⟨p, hpagg, rfl⟩
    have hkeys : ((segCands.foldl
        (fun m sc => sc.2.foldl (addCandidate ((sc.1.length : ℚ))) m)
        ([] : List (String × AggEntry))).map Prod.fst).Nodup := by
      rw [agg_fold_eq_stream segCands []]
      exact foldl_addCandidate_keys _ [] (by simp)
    have hmeta : ∀ q ∈ (segCands.foldl
        (fun m sc => sc.2.foldl (addCandidate ((sc.1.length : ℚ))) m)
        ([] : List (String × AggEntry))), (q.2 : AggEntry).alpha3 = q.1 := by
      rw [agg_fold_eq_stream segCands []]
      exact foldl_addCandidate_meta _ [] (by simp)
    have ha3 : p.2.alpha3 = p.1 := hmeta p hpagg
    have hlook := lookupKey_of_mem_nodup _ hkeys p hpagg
    have hts : p.2.totalScore = totalScoreSpec segCands p.1 := by
      have h4 := (foldl_addCandidate_totals (candStream segCands) [] p.1).1
      rw [← agg_fold_eq_stream segCands []] at h4
      rw [streamScore_eq_spec] at h4
      have h5 : aggScore (segCands.foldl
          (fun m sc => sc.2.foldl (addCandidate ((sc.1.length : ℚ))) m)
          ([] : List (String × AggEntry))) p.1 = p.2.totalScore := by
        unfold aggScore
        rw [hlook]
      rw [h5] at h4
      simpa [aggScore, lookupKey] using h4
    have htw : p.2.totalWeight = totalWeightSpec segCands p.1 := by
      have h4 := (foldl_addCandidate_totals (candStream segCands) [] p.1).2
      rw [← agg_fold_eq_stream segCands []] at h4
      rw [streamWeight_eq_spec segCands p.1 hnodup] at h4
      have h5 : aggWeight (segCands.foldl
          (fun m sc => sc.2.foldl (addCandidate ((sc.1.length : ℚ))) m)
          ([] : List (String × AggEntry))) p.1 = p.2.totalWeight := by
        unfold aggWeight
        rw [hlook]
      rw [h5] at h4
      simpa [aggWeight, lookupKey] using h4
    show (if p.2.totalWeight = 0 then (0 : ℚ)
        else p.2.totalScore / p.2.totalWeight) =
      totalScoreSpec segCands p.2.alpha3 / totalWeightSpec segCands p.2.alpha3
    rw [ha3, ← hts, ← htw]
    by_cases hw0 : p.2.totalWeight = 0
    · rw [if_pos hw0, hw0, div_zero]
    · rw [if_neg hw0]
  · rw [← hmix]
    exact List.length_take_le _ _

/-- Witness for C10 at the short input Hi: the single undetermined result
carries the weighted-average score of its one segment. -/
theorem C10_witness :
    (⟨("und" : String), ("" : String), ("Undetermined" : String), (0 : ℚ)⟩ : GuessResult).score =
      totalScoreSpec [(("Hi".toList),
        [(⟨("und" : String), ("" : String), ("Undetermined" : String), (0 : ℚ)⟩ : GuessResult)])] ("und") /
      totalWeightSpec [(("Hi".toList),
        [(⟨("und" : String), ("" : String), ("Undetermined" : String), (0 : ℚ)⟩ : GuessResult)])] ("und") :=
  (C10_guessMixed_weighted_average ⟨[], []⟩ ("Hi".toList) [] 3 none none
    [("Hi".toList)]
    [(("Hi".toList),
      [(⟨("und" : String), ("" : String), ("Undetermined" : String), (0 : ℚ)⟩ : GuessResult)])]
    [(⟨("und" : String), ("" : String), ("Undetermined" : String), (0 : ℚ)⟩ : GuessResult)]
    (by with_unfolding_all rfl) (by with_unfolding_all rfl)
    (by with_unfolding_all decide) (by with_unfolding_all rfl)).2.1
    (⟨("und" : String), ("" : String), ("Undetermined" : String), (0 : ℚ)⟩ : GuessResult)
    (List.mem_singleton_self _)

end LanguageGuesser
